import Mathlib

/-!
# Verification of the brainfuck parser (`src/lib.rs`)

A shallow embedding of the nom-based recursive-descent brainfuck parser:
`parse`, `parse_instruction` and `parse_loop` from `src/lib.rs`, together
with the nom combinator behaviour they rely on (`tag`, `alt`, `value`,
`map`, `many0`, `tuple`).

Input strings are embedded as `List Char`.  The nom result type
`IResult<&str, O> = Result<(&str, O), nom::Err<Error<&str>>>` is embedded
as `Except NomErr (List Char × O)`.  Only the complete (non-streaming)
combinators are used by the source, so `nom::Err::Incomplete` can never
arise and is omitted from the error model.
-/

/-- The error kinds of `nom::error::ErrorKind` that the combinators used by
this parser can produce: `tag` produces `Tag`, the top-level driver produces
`Eof`, and `many0` produces `Many0` when its inner parser succeeds without
consuming input. -/
inductive ErrorKind where
  | Tag
  | Eof
  | Many0

/-- `nom::Err<nom::error::Error<&str>>` for complete parsers: a recoverable
`Error` or an unrecoverable `Failure`, each carrying the input position at
which it was raised and an `ErrorKind`. -/
inductive NomErr where
  | error (input : List Char) (kind : ErrorKind)
  | failure (input : List Char) (kind : ErrorKind)

/-- The AST node type `Instruction` from `src/lib.rs`. -/
inductive Instruction where
  | RightShift
  | LeftShift
  | Increment
  | Decrement
  | Output
  | Input
  | Loop (body : List Instruction)

/-- The wrapper struct `BrainfuckProgram(Vec<Instruction>)` from `src/lib.rs`. -/
structure BrainfuckProgram where
  instructions : List Instruction

/-- nom's `bytes::complete::tag`: succeed iff `t` is a prefix of the input,
consuming it; otherwise fail recoverably with `ErrorKind::Tag` at the
current input. -/
def tag (t : List Char) (input : List Char) : Except NomErr (List Char × List Char) :=
  if t.isPrefixOf input then .ok (input.drop t.length, t)
  else .error (.error input .Tag)

theorem tag_ok_length {t input rest o : List Char}
    (h : tag t input = .ok (rest, o)) (ht : t ≠ []) : rest.length < input.length := by
  unfold tag at h
  split at h
  · rename_i hpre
    have hlen : t.length ≤ input.length :=
      (List.isPrefixOf_iff_prefix.mp hpre).length_le
    have : rest = input.drop t.length := by
      injection h with h1
      injection h1 with h2 _
      exact h2.symm
    subst this
    have : 0 < t.length := List.length_pos.mpr ht
    simp [List.length_drop]
    omega
  · exact absurd h (by simp)

mutual

/-- `parse_instruction` from `src/lib.rs`:
`alt((value(RightShift, tag(">")), ..., map(parse_loop, Loop)))`.
nom's `alt` tries the alternatives in order, moving on when one fails with a
recoverable `Error`, propagating a `Failure` immediately, and returning the
last alternative's result as-is when every alternative has failed. -/
def parse_instruction (input : List Char) : Except NomErr (List Char × Instruction) :=
  match tag ['>'] input with
  | .ok (rest, _) => .ok (rest, .RightShift)
  | .error (.failure i k) => .error (.failure i k)
  | .error (.error _ _) =>
  match tag ['<'] input with
  | .ok (rest, _) => .ok (rest, .LeftShift)
  | .error (.failure i k) => .error (.failure i k)
  | .error (.error _ _) =>
  match tag ['+'] input with
  | .ok (rest, _) => .ok (rest, .Increment)
  | .error (.failure i k) => .error (.failure i k)
  | .error (.error _ _) =>
  match tag ['-'] input with
  | .ok (rest, _) => .ok (rest, .Decrement)
  | .error (.failure i k) => .error (.failure i k)
  | .error (.error _ _) =>
  match tag ['.'] input with
  | .ok (rest, _) => .ok (rest, .Output)
  | .error (.failure i k) => .error (.failure i k)
  | .error (.error _ _) =>
  match tag [','] input with
  | .ok (rest, _) => .ok (rest, .Input)
  | .error (.failure i k) => .error (.failure i k)
  | .error (.error _ _) =>
  match parse_loop input with
  | .ok (rest, body) => .ok (rest, .Loop body)
  | .error e => .error e
termination_by 3 * input.length + 1
decreasing_by
  simp_wf
  try omega

/-- `parse_loop` from `src/lib.rs`:
`tuple((tag("["), many0(parse_instruction), tag("]")))(input)?`, returning
the accumulated body.  `tuple` runs its parsers in sequence and `?`
propagates the first error unchanged. -/
def parse_loop (input : List Char) : Except NomErr (List Char × List Instruction) :=
  match h1 : tag ['['] input with
  | .error e => .error e
  | .ok (i1, _) =>
    match many0_instruction i1 with
    | .error e => .error e
    | .ok (i2, instructions) =>
      match tag [']'] i2 with
      | .error e => .error e
      | .ok (i3, _) => .ok (i3, instructions)
termination_by 3 * input.length
decreasing_by
  simp_wf
  try { have := tag_ok_length h1 (by simp); omega }

/-- nom's `many0(parse_instruction)`: repeatedly apply `parse_instruction`,
collecting the results in order; stop (succeeding) at the first recoverable
`Error`, propagate a `Failure`.  nom aborts with `ErrorKind::Many0` when the
inner parser succeeds without consuming input (`i1 == i`); since
`parse_instruction` always returns a suffix of its input, that test is
recast here as the equivalent length comparison, which also makes the
recursion well-founded. -/
def many0_instruction (input : List Char) : Except NomErr (List Char × List Instruction) :=
  match parse_instruction input with
  | .error (.error _ _) => .ok (input, [])
  | .error (.failure i k) => .error (.failure i k)
  | .ok (rest, instr) =>
    if h : rest.length < input.length then
      match many0_instruction rest with
      | .error e => .error e
      | .ok (r, l) => .ok (r, instr :: l)
    else .error (.error input .Many0)
termination_by 3 * input.length + 2
decreasing_by
  all_goals simp_wf
  all_goals try omega

end

/-- `parse` from `src/lib.rs`, the public entry point: run
`many0(parse_instruction)` and require that the whole input was consumed,
otherwise fail fatally with `ErrorKind::Eof` at the leftover input. -/
def parse (input : List Char) : Except NomErr (List Char × List Instruction) :=
  match many0_instruction input with
  | .ok ([], instructions) => .ok ([], instructions)
  | .ok (rest, _) => .error (.failure rest .Eof)
  | .error e => .error e

/-! ## Computation lemmas for the single-character tags -/

theorem tag_single_nil (c : Char) : tag [c] [] = .error (.error [] .Tag) := by
  simp [tag, List.isPrefixOf]

theorem tag_single_cons_self (c : Char) (xs : List Char) :
    tag [c] (c :: xs) = .ok (xs, [c]) := by
  simp [tag, List.isPrefixOf]

theorem tag_single_cons_ne {c x : Char} (h : c ≠ x) (xs : List Char) :
    tag [c] (x :: xs) = .error (.error (x :: xs) .Tag) := by
  simp [tag, List.isPrefixOf, h]

/-! ## One-step unfolding lemmas for the three parser functions -/

/-- Restatement of the body of `parse_loop` without the dependent match
(the dependent match in the definition only serves its termination proof). -/
theorem parse_loop_eq (input : List Char) :
    parse_loop input =
      (match tag ['['] input with
      | .error e => .error e
      | .ok (i1, _) =>
        match many0_instruction i1 with
        | .error e => .error e
        | .ok (i2, instructions) =>
          match tag [']'] i2 with
          | .error e => .error e
          | .ok (i3, _) => .ok (i3, instructions)) := by
  unfold parse_loop
  split <;> rename_i heq <;> rw [heq]

/-- Restatement of the body of `many0_instruction` with `if` in place of the
dependent `dif` (which only serves its termination proof). -/
theorem many0_eq (input : List Char) :
    many0_instruction input =
      (match parse_instruction input with
      | .error (.error _ _) => .ok (input, [])
      | .error (.failure i k) => .error (.failure i k)
      | .ok (rest, instr) =>
        if rest.length < input.length then
          match many0_instruction rest with
          | .error e => .error e
          | .ok (r, l) => .ok (r, instr :: l)
        else .error (.error input .Many0)) := by
  conv_lhs => unfold many0_instruction
  split
  · rfl
  · rfl
  · split <;> rfl

theorem parse_loop_nil : parse_loop [] = .error (.error [] .Tag) := by
  rw [parse_loop_eq, tag_single_nil]

theorem parse_instruction_nil : parse_instruction [] = .error (.error [] .Tag) := by
  unfold parse_instruction
  simp [tag_single_nil, parse_loop_nil]

/-- Full case analysis of `parse_instruction` on the first input character,
mirroring the `alt` dispatch over the eight recognized symbols. -/
theorem parse_instruction_cons (c : Char) (t : List Char) :
    parse_instruction (c :: t) =
      if c = '>' then .ok (t, .RightShift)
      else if c = '<' then .ok (t, .LeftShift)
      else if c = '+' then .ok (t, .Increment)
      else if c = '-' then .ok (t, .Decrement)
      else if c = '.' then .ok (t, .Output)
      else if c = ',' then .ok (t, .Input)
      else if c = '[' then
        (match parse_loop (c :: t) with
        | .ok (rest, body) => .ok (rest, .Loop body)
        | .error e => .error e)
      else .error (.error (c :: t) .Tag) := by
  unfold parse_instruction
  by_cases h1 : c = '>'
  · subst h1; rw [tag_single_cons_self]; simp
  rw [tag_single_cons_ne (Ne.symm h1)]
  by_cases h2 : c = '<'
  · subst h2; rw [tag_single_cons_self]; simp
  rw [tag_single_cons_ne (Ne.symm h2)]
  by_cases h3 : c = '+'
  · subst h3; rw [tag_single_cons_self]; simp
  rw [tag_single_cons_ne (Ne.symm h3)]
  by_cases h4 : c = '-'
  · subst h4; rw [tag_single_cons_self]; simp
  rw [tag_single_cons_ne (Ne.symm h4)]
  by_cases h5 : c = '.'
  · subst h5; rw [tag_single_cons_self]; simp
  rw [tag_single_cons_ne (Ne.symm h5)]
  by_cases h6 : c = ','
  · subst h6; rw [tag_single_cons_self]; simp
  rw [tag_single_cons_ne (Ne.symm h6)]
  by_cases h7 : c = '['
  · subst h7; simp
  · rw [parse_loop_eq, tag_single_cons_ne (Ne.symm h7)]
    simp [h1, h2, h3, h4, h5, h6, h7]

/-! ## Fuel-indexed executable twins

The three parser functions again, with a structural fuel argument, so the
kernel can evaluate them on concrete inputs.  `fuel_adequacy` below shows
they agree with the well-founded definitions whenever the fuel dominates
the recursion measure. -/

mutual

def piF : Nat → List Char → Except NomErr (List Char × Instruction)
  | 0, input => .error (.error input .Tag)
  | fuel + 1, input =>
    match tag ['>'] input with
    | .ok (rest, _) => .ok (rest, .RightShift)
    | .error (.failure i k) => .error (.failure i k)
    | .error (.error _ _) =>
    match tag ['<'] input with
    | .ok (rest, _) => .ok (rest, .LeftShift)
    | .error (.failure i k) => .error (.failure i k)
    | .error (.error _ _) =>
    match tag ['+'] input with
    | .ok (rest, _) => .ok (rest, .Increment)
    | .error (.failure i k) => .error (.failure i k)
    | .error (.error _ _) =>
    match tag ['-'] input with
    | .ok (rest, _) => .ok (rest, .Decrement)
    | .error (.failure i k) => .error (.failure i k)
    | .error (.error _ _) =>
    match tag ['.'] input with
    | .ok (rest, _) => .ok (rest, .Output)
    | .error (.failure i k) => .error (.failure i k)
    | .error (.error _ _) =>
    match tag [','] input with
    | .ok (rest, _) => .ok (rest, .Input)
    | .error (.failure i k) => .error (.failure i k)
    | .error (.error _ _) =>
    match plF fuel input with
    | .ok (rest, body) => .ok (rest, .Loop body)
    | .error e => .error e

def plF : Nat → List Char → Except NomErr (List Char × List Instruction)
  | 0, input => .error (.error input .Tag)
  | fuel + 1, input =>
    match tag ['['] input with
    | .error e => .error e
    | .ok (i1, _) =>
      match m0F fuel i1 with
      | .error e => .error e
      | .ok (i2, instructions) =>
        match tag [']'] i2 with
        | .error e => .error e
        | .ok (i3, _) => .ok (i3, instructions)

def m0F : Nat → List Char → Except NomErr (List Char × List Instruction)
  | 0, input => .error (.error input .Tag)
  | fuel + 1, input =>
    match piF fuel input with
    | .error (.error _ _) => .ok (input, [])
    | .error (.failure i k) => .error (.failure i k)
    | .ok (rest, instr) =>
      if rest.length < input.length then
        match m0F fuel rest with
        | .error e => .error e
        | .ok (r, l) => .ok (r, instr :: l)
      else .error (.error input .Many0)

end

theorem fuel_adequacy : ∀ fuel : Nat,
    (∀ input : List Char, 3 * input.length + 1 ≤ fuel → piF fuel input = parse_instruction input) ∧
    (∀ input : List Char, 3 * input.length ≤ fuel → plF fuel input = parse_loop input) ∧
    (∀ input : List Char, 3 * input.length + 2 ≤ fuel → m0F fuel input = many0_instruction input) := by
  intro fuel
  induction fuel with
  | zero =>
    refine ⟨fun input h => by omega, fun input h => ?_, fun input h => by omega⟩
    have hnil : input = [] := List.length_eq_zero.mp (by omega)
    subst hnil
    exact parse_loop_nil.symm ▸ rfl
  | succ fuel ih =>
    obtain ⟨ihpi, ihpl, ihm0⟩ := ih
    refine ⟨fun input h => ?_, fun input h => ?_, fun input h => ?_⟩
    · show piF (fuel + 1) input = parse_instruction input
      unfold piF
      unfold parse_instruction
      rw [ihpl input (by omega)]
    · show plF (fuel + 1) input = parse_loop input
      rw [parse_loop_eq]
      unfold plF
      cases htag : tag ['['] input with
      | error e => rfl
      | ok p =>
        obtain ⟨i1, o⟩ := p
        have hi1 : i1.length < input.length := tag_ok_length htag (by simp)
        dsimp only
        rw [ihm0 i1 (by omega)]
    · show m0F (fuel + 1) input = many0_instruction input
      rw [many0_eq]
      unfold m0F
      rw [ihpi input (by omega)]
      cases hpi : parse_instruction input with
      | error e => cases e <;> rfl
      | ok p =>
        obtain ⟨rest, instr⟩ := p
        dsimp only
        by_cases hlt : rest.length < input.length
        · rw [if_pos hlt, if_pos hlt, ihm0 rest (by omega)]
        · rw [if_neg hlt, if_neg hlt]

/-- Evaluate `many0_instruction` through its fuel twin. -/
theorem many0_eval (input : List Char) :
    many0_instruction input = m0F (3 * input.length + 2) input :=
  ((fuel_adequacy (3 * input.length + 2)).2.2 input le_rfl).symm

/-- Evaluate `parse_instruction` through its fuel twin. -/
theorem parse_instruction_eval (input : List Char) :
    parse_instruction input = piF (3 * input.length + 1) input :=
  ((fuel_adequacy (3 * input.length + 1)).1 input le_rfl).symm

/-- Evaluate `parse_loop` through its fuel twin. -/
theorem parse_loop_eval (input : List Char) :
    parse_loop input = plF (3 * input.length) input :=
  ((fuel_adequacy (3 * input.length)).2.1 input le_rfl).symm

/-- Evaluate `parse` through the fuel twin of `many0(parse_instruction)`. -/
theorem parse_eval (input : List Char) :
    parse input =
      (match m0F (3 * input.length + 2) input with
      | .ok ([], instructions) => .ok ([], instructions)
      | .ok (rest, _) => .error (.failure rest .Eof)
      | .error e => .error e) := by
  unfold parse
  rw [many0_eval]

/-! ## Structural facts: consumption, suffixes, absence of fatal failures -/

theorem many0_nil : many0_instruction [] = .ok ([], []) := by
  rw [many0_eval]
  rfl

/-- Combined induction: on every input, a successful `parse_instruction` or
`parse_loop` consumes at least one character and returns a suffix of its
input; neither ever raises a fatal `Failure`; and `many0(parse_instruction)`
always succeeds, returning a suffix of its input. -/
theorem parser_facts : ∀ n : Nat, ∀ s : List Char, s.length ≤ n →
    ((∀ r i, parse_instruction s = .ok (r, i) → r.length < s.length ∧ r <:+ s) ∧
     (∀ i k, parse_instruction s ≠ .error (.failure i k))) ∧
    ((∀ r l, parse_loop s = .ok (r, l) → r.length < s.length ∧ r <:+ s) ∧
     (∀ i k, parse_loop s ≠ .error (.failure i k))) ∧
    ((∃ r l, many0_instruction s = .ok (r, l)) ∧
     (∀ r l, many0_instruction s = .ok (r, l) → r.length ≤ s.length ∧ r <:+ s)) := by
  intro n
  induction n with
  | zero =>
    intro s hs
    have hnil : s = [] := List.length_eq_zero.mp (by omega)
    subst hnil
    refine ⟨⟨?_, ?_⟩, ⟨?_, ?_⟩, ⟨⟨[], [], many0_nil⟩, ?_⟩⟩
    · intro r i h
      rw [parse_instruction_nil] at h
      simp at h
    · intro i k h
      rw [parse_instruction_nil] at h
      simp at h
    · intro r l h
      rw [parse_loop_nil] at h
      simp at h
    · intro i k h
      rw [parse_loop_nil] at h
      simp at h
    · intro r l h
      rw [many0_nil] at h
      injection h with h'
      injection h' with ha hb
      subst ha
      exact ⟨le_refl _, List.suffix_refl _⟩
  | succ n ih =>
    intro s hs
    match s with
    | [] => exact ih [] (by simp)
    | c :: t =>
      have ht : t.length ≤ n := by
        simp only [List.length_cons] at hs
        omega
      have hpl : (∀ r l, parse_loop (c :: t) = .ok (r, l) →
            r.length < (c :: t).length ∧ r <:+ c :: t) ∧
          (∀ i k, parse_loop (c :: t) ≠ .error (.failure i k)) := by
        by_cases hc : c = '['
        · subst hc
          obtain ⟨⟨r0, l0, hm0⟩, hm0bound⟩ := (ih t ht).2.2
          obtain ⟨hb1, hb2⟩ := hm0bound r0 l0 hm0
          rw [parse_loop_eq, tag_single_cons_self]
          dsimp only
          rw [hm0]
          dsimp only
          cases r0 with
          | nil =>
            rw [tag_single_nil]
            exact ⟨fun r l h => by simp at h, fun i k h => by simp at h⟩
          | cons d r' =>
            by_cases hd : d = ']'
            · subst hd
              rw [tag_single_cons_self]
              refine ⟨fun r l h => ?_, fun i k h => by simp at h⟩
              injection h with h'
              injection h' with ha hb
              subst ha
              constructor
              · simp only [List.length_cons] at hb1 ⊢
                omega
              · exact ((List.suffix_cons ']' r').trans hb2).trans (List.suffix_cons '[' t)
            · rw [tag_single_cons_ne (fun h => hd h.symm)]
              exact ⟨fun r l h => by simp at h, fun i k h => by simp at h⟩
        · rw [parse_loop_eq, tag_single_cons_ne (fun h => hc h.symm)]
          exact ⟨fun r l h => by simp at h, fun i k h => by simp at h⟩
      have hpi : (∀ r i, parse_instruction (c :: t) = .ok (r, i) →
            r.length < (c :: t).length ∧ r <:+ c :: t) ∧
          (∀ i k, parse_instruction (c :: t) ≠ .error (.failure i k)) := by
        rw [parse_instruction_cons]
        split_ifs with h1 h2 h3 h4 h5 h6 h7
        · refine ⟨fun r i h => ?_, fun i k h => by simp at h⟩
          injection h with h'
          injection h' with ha hb
          subst ha
          exact ⟨by simp only [List.length_cons]; omega, List.suffix_cons c t⟩
        · refine ⟨fun r i h => ?_, fun i k h => by simp at h⟩
          injection h with h'
          injection h' with ha hb
          subst ha
          exact ⟨by simp only [List.length_cons]; omega, List.suffix_cons c t⟩
        · refine ⟨fun r i h => ?_, fun i k h => by simp at h⟩
          injection h with h'
          injection h' with ha hb
          subst ha
          exact ⟨by simp only [List.length_cons]; omega, List.suffix_cons c t⟩
        · refine ⟨fun r i h => ?_, fun i k h => by simp at h⟩
          injection h with h'
          injection h' with ha hb
          subst ha
          exact ⟨by simp only [List.length_cons]; omega, List.suffix_cons c t⟩
        · refine ⟨fun r i h => ?_, fun i k h => by simp at h⟩
          injection h with h'
          injection h' with ha hb
          subst ha
          exact ⟨by simp only [List.length_cons]; omega, List.suffix_cons c t⟩
        · refine ⟨fun r i h => ?_, fun i k h => by simp at h⟩
          injection h with h'
          injection h' with ha hb
          subst ha
          exact ⟨by simp only [List.length_cons]; omega, List.suffix_cons c t⟩
        · cases hloop : parse_loop (c :: t) with
          | ok p =>
            obtain ⟨r0, b0⟩ := p
            dsimp only
            refine ⟨fun r i h => ?_, fun i k h => by simp at h⟩
            injection h with h'
            injection h' with ha hb
            subst ha
            exact hpl.1 r0 b0 hloop
          | error e =>
            dsimp only
            refine ⟨fun r i h => by simp at h, fun i k h => ?_⟩
            injection h with h'
            subst h'
            exact hpl.2 i k hloop
        · exact ⟨fun r i h => by simp at h, fun i k h => by simp at h⟩
      refine ⟨hpi, hpl, ?_⟩
      rw [many0_eq]
      cases hpi0 : parse_instruction (c :: t) with
      | error e =>
        cases e with
        | error i k =>
          dsimp only
          refine ⟨⟨c :: t, [], rfl⟩, fun r l h => ?_⟩
          injection h with h'
          injection h' with ha hb
          subst ha
          exact ⟨le_refl _, List.suffix_refl _⟩
        | failure i k => exact absurd hpi0 (hpi.2 i k)
      | ok p =>
        obtain ⟨rest, instr⟩ := p
        dsimp only
        obtain ⟨hlen, hsuf⟩ := hpi.1 rest instr hpi0
        rw [if_pos hlen]
        have hrest : rest.length ≤ n := by
          simp only [List.length_cons] at hlen hs
          omega
        obtain ⟨⟨r1, l1, hm1⟩, hm1bound⟩ := (ih rest hrest).2.2
        obtain ⟨hc1, hc2⟩ := hm1bound r1 l1 hm1
        rw [hm1]
        dsimp only
        refine ⟨⟨r1, instr :: l1, rfl⟩, fun r l h => ?_⟩
        injection h with h'
        injection h' with ha hb
        subst ha
        refine ⟨?_, hc2.trans hsuf⟩
        simp only [List.length_cons] at hlen ⊢
        omega

/-! ## Rendering an AST back to source text

This is the spec-side notion used by the order-preservation claim: each leaf
instruction renders as its symbol and a `Loop` renders as `[`, its rendered
body, `]`. -/

mutual

def printInstr : Instruction → List Char
  | .RightShift => ['>']
  | .LeftShift => ['<']
  | .Increment => ['+']
  | .Decrement => ['-']
  | .Output => ['.']
  | .Input => [',']
  | .Loop body => '[' :: (printList body ++ [']'])

def printList : List Instruction → List Char
  | [] => []
  | i :: l => printInstr i ++ printList l

end

/-- Round-trip induction: whatever any of the three parser functions
successfully produces, rendered back to text and prepended to the remaining
input, reproduces the original input exactly. -/
theorem roundtrip_facts : ∀ n : Nat, ∀ s : List Char, s.length ≤ n →
    (∀ r i, parse_instruction s = .ok (r, i) → printInstr i ++ r = s) ∧
    (∀ r l, parse_loop s = .ok (r, l) → ('[' :: (printList l ++ [']'])) ++ r = s) ∧
    (∀ r l, many0_instruction s = .ok (r, l) → printList l ++ r = s) := by
  intro n
  induction n with
  | zero =>
    intro s hs
    have hnil : s = [] := List.length_eq_zero.mp (by omega)
    subst hnil
    refine ⟨?_, ?_, ?_⟩
    · intro r i h
      rw [parse_instruction_nil] at h
      simp at h
    · intro r l h
      rw [parse_loop_nil] at h
      simp at h
    · intro r l h
      rw [many0_nil] at h
      injection h with h'
      injection h' with ha hb
      subst ha
      subst hb
      rfl
  | succ n ih =>
    intro s hs
    match s with
    | [] => exact ih [] (by simp)
    | c :: t =>
      have ht : t.length ≤ n := by
        simp only [List.length_cons] at hs
        omega
      have hpl : ∀ r l, parse_loop (c :: t) = .ok (r, l) →
          ('[' :: (printList l ++ [']'])) ++ r = c :: t := by
        intro r l h
        rw [parse_loop_eq] at h
        by_cases hc : c = '['
        · subst hc
          rw [tag_single_cons_self] at h
          dsimp only at h
          cases hm0 : many0_instruction t with
          | error e =>
            rw [hm0] at h
            simp at h
          | ok p =>
            obtain ⟨i2, ins⟩ := p
            rw [hm0] at h
            dsimp only at h
            have hr : printList ins ++ i2 = t := (ih t ht).2.2 i2 ins hm0
            cases i2 with
            | nil =>
              rw [tag_single_nil] at h
              simp at h
            | cons d i3 =>
              by_cases hd : d = ']'
              · subst hd
                rw [tag_single_cons_self] at h
                injection h with h'
                injection h' with ha hb
                subst ha
                subst hb
                rw [← hr]
                simp
              · rw [tag_single_cons_ne (fun hh => hd hh.symm)] at h
                simp at h
        · rw [tag_single_cons_ne (fun hh => hc hh.symm)] at h
          simp at h
      have hpi : ∀ r i, parse_instruction (c :: t) = .ok (r, i) →
          printInstr i ++ r = c :: t := by
        intro r i h
        rw [parse_instruction_cons] at h
        split_ifs at h with h1 h2 h3 h4 h5 h6 h7
        · subst h1
          injection h with h'
          injection h' with ha hb
          subst ha
          subst hb
          rfl
        · subst h2
          injection h with h'
          injection h' with ha hb
          subst ha
          subst hb
          rfl
        · subst h3
          injection h with h'
          injection h' with ha hb
          subst ha
          subst hb
          rfl
        · subst h4
          injection h with h'
          injection h' with ha hb
          subst ha
          subst hb
          rfl
        · subst h5
          injection h with h'
          injection h' with ha hb
          subst ha
          subst hb
          rfl
        · subst h6
          injection h with h'
          injection h' with ha hb
          subst ha
          subst hb
          rfl
        · cases hloop : parse_loop (c :: t) with
          | ok p =>
            obtain ⟨r0, b0⟩ := p
            rw [hloop] at h
            dsimp only at h
            injection h with h'
            injection h' with ha hb
            subst ha
            subst hb
            exact hpl r0 b0 hloop
          | error e =>
            rw [hloop] at h
            simp at h
      refine ⟨hpi, hpl, ?_⟩
      intro r l h
      rw [many0_eq] at h
      cases hE : parse_instruction (c :: t) with
      | error e =>
        rw [hE] at h
        cases e with
        | error i k =>
          dsimp only at h
          injection h with h'
          injection h' with ha hb
          subst ha
          subst hb
          rfl
        | failure i k =>
          simp at h
      | ok p =>
        obtain ⟨rest, instr⟩ := p
        rw [hE] at h
        dsimp only at h
        by_cases hlt : rest.length < (c :: t).length
        · rw [if_pos hlt] at h
          cases hm1 : many0_instruction rest with
          | error e =>
            rw [hm1] at h
            simp at h
          | ok q =>
            obtain ⟨r1, l1⟩ := q
            rw [hm1] at h
            dsimp only at h
            injection h with h'
            injection h' with ha hb
            subst ha
            subst hb
            have hrest : rest.length ≤ n := by
              simp only [List.length_cons] at hlt
              omega
            have e1 : printInstr instr ++ rest = c :: t := hpi rest instr hE
            have e2 : printList l1 ++ r1 = rest := (ih rest hrest).2.2 r1 l1 hm1
            show printList (instr :: l1) ++ r1 = c :: t
            calc printList (instr :: l1) ++ r1
                = printInstr instr ++ (printList l1 ++ r1) := by
                  simp [printList, List.append_assoc]
              _ = printInstr instr ++ rest := by rw [e2]
              _ = c :: t := e1
        · rw [if_neg hlt] at h
          simp at h

/-! ## The eight-symbol alphabet and bracket balance

Spec-side notions used to state the claims about well-formed inputs:
membership in the eight-symbol alphabet, and the left-to-right bracket scan
defining properly balanced and nested `[`/`]` pairs. -/

/-- `c` is one of the eight recognized symbols. -/
def isBFChar (c : Char) : Bool :=
  c == '>' || c == '<' || c == '+' || c == '-' || c == '.' || c == ',' ||
    c == '[' || c == ']'

/-- Bracket scan: starting with `d` loops open, process the string left to
right; `none` records a `]` with no open loop (underflow), otherwise
`some e` gives the number of loops still open at the end.  `scanDepth 0 s =
some 0` is exactly "properly balanced and nested" for `s`. -/
def scanDepth : Nat → List Char → Option Nat
  | d, [] => some d
  | d, c :: t =>
    if c = '[' then scanDepth (d + 1) t
    else if c = ']' then
      match d with
      | 0 => none
      | e + 1 => scanDepth e t
    else scanDepth d t

theorem scanDepth_nil (d : Nat) : scanDepth d [] = some d := rfl

theorem scanDepth_cons (d : Nat) (c : Char) (t : List Char) :
    scanDepth d (c :: t) =
      if c = '[' then scanDepth (d + 1) t
      else if c = ']' then
        (match d with
        | 0 => none
        | e + 1 => scanDepth e t)
      else scanDepth d t := rfl

mutual

theorem printInstr_chars (i : Instruction) : ∀ c ∈ printInstr i, isBFChar c = true :=
  match i with
  | .RightShift => by intro c hc; simp only [printInstr, List.mem_singleton] at hc; subst hc; rfl
  | .LeftShift => by intro c hc; simp only [printInstr, List.mem_singleton] at hc; subst hc; rfl
  | .Increment => by intro c hc; simp only [printInstr, List.mem_singleton] at hc; subst hc; rfl
  | .Decrement => by intro c hc; simp only [printInstr, List.mem_singleton] at hc; subst hc; rfl
  | .Output => by intro c hc; simp only [printInstr, List.mem_singleton] at hc; subst hc; rfl
  | .Input => by intro c hc; simp only [printInstr, List.mem_singleton] at hc; subst hc; rfl
  | .Loop body => by
    intro c hc
    simp only [printInstr, List.mem_cons, List.mem_append, List.mem_singleton] at hc
    rcases hc with hc | hc | hc
    · subst hc; rfl
    · exact printList_chars body c hc
    · rcases hc with hc | hc
      · subst hc; rfl
      · simp at hc

theorem printList_chars (l : List Instruction) : ∀ c ∈ printList l, isBFChar c = true :=
  match l with
  | [] => by intro c hc; simp [printList] at hc
  | i :: rest => by
    intro c hc
    simp only [printList, List.mem_append] at hc
    rcases hc with hc | hc
    · exact printInstr_chars i c hc
    · exact printList_chars rest c hc

end

mutual

theorem scanDepth_printInstr (i : Instruction) :
    ∀ d rest, scanDepth d (printInstr i ++ rest) = scanDepth d rest :=
  match i with
  | .RightShift => by intro d rest; rw [printInstr]; rw [List.singleton_append, scanDepth_cons]; simp
  | .LeftShift => by intro d rest; rw [printInstr]; rw [List.singleton_append, scanDepth_cons]; simp
  | .Increment => by intro d rest; rw [printInstr]; rw [List.singleton_append, scanDepth_cons]; simp
  | .Decrement => by intro d rest; rw [printInstr]; rw [List.singleton_append, scanDepth_cons]; simp
  | .Output => by intro d rest; rw [printInstr]; rw [List.singleton_append, scanDepth_cons]; simp
  | .Input => by intro d rest; rw [printInstr]; rw [List.singleton_append, scanDepth_cons]; simp
  | .Loop body => by
    intro d rest
    rw [printInstr]
    have hsh : ('[' :: (printList body ++ [']'])) ++ rest =
        '[' :: (printList body ++ (']' :: rest)) := by simp
    rw [hsh, scanDepth_cons]
    simp only [if_pos rfl]
    rw [scanDepth_printList body (d + 1) (']' :: rest), scanDepth_cons]
    simp

theorem scanDepth_printList (l : List Instruction) :
    ∀ d rest, scanDepth d (printList l ++ rest) = scanDepth d rest :=
  match l with
  | [] => by intro d rest; rw [printList]; rw [List.nil_append]
  | i :: tl => by
    intro d rest
    rw [printList, List.append_assoc]
    rw [scanDepth_printInstr i d (printList tl ++ rest)]
    exact scanDepth_printList tl d rest

end

/-! ## Success on balanced eight-symbol inputs -/

theorem many0_cons_of_pi {s rest : List Char} {instr : Instruction}
    (hpi : parse_instruction s = .ok (rest, instr)) (hlt : rest.length < s.length) :
    many0_instruction s =
      (match many0_instruction rest with
      | .error e => .error e
      | .ok (r, l) => .ok (r, instr :: l)) := by
  rw [many0_eq, hpi]
  dsimp only
  rw [if_pos hlt]

theorem leaf_parse {c : Char}
    (h : c = '>' ∨ c = '<' ∨ c = '+' ∨ c = '-' ∨ c = '.' ∨ c = ',') (t : List Char) :
    ∃ instr, parse_instruction (c :: t) = .ok (t, instr) := by
  rcases h with h | h | h | h | h | h <;> subst h
  · exact ⟨.RightShift, by rw [parse_instruction_cons]; simp⟩
  · exact ⟨.LeftShift, by rw [parse_instruction_cons]; simp⟩
  · exact ⟨.Increment, by rw [parse_instruction_cons]; simp⟩
  · exact ⟨.Decrement, by rw [parse_instruction_cons]; simp⟩
  · exact ⟨.Output, by rw [parse_instruction_cons]; simp⟩
  · exact ⟨.Input, by rw [parse_instruction_cons]; simp⟩

theorem parse_instruction_rsq (t : List Char) :
    parse_instruction (']' :: t) = .error (.error (']' :: t) .Tag) := by
  rw [parse_instruction_cons, parse_loop_eq, tag_single_cons_ne (by decide)]
  simp

theorem many0_rsq (t : List Char) :
    many0_instruction (']' :: t) = .ok (']' :: t, []) := by
  rw [many0_eq, parse_instruction_rsq]

/-- On an eight-symbol input whose bracket scan from depth `d` ends balanced,
`many0(parse_instruction)` consumes everything up to (for `d > 0`) the `]`
closing the innermost open loop, which it leaves in place. -/
theorem balanced_facts : ∀ n : Nat, ∀ s : List Char, s.length ≤ n →
    (∀ c ∈ s, isBFChar c = true) → ∀ d : Nat, scanDepth d s = some 0 →
    ((d = 0 → ∃ l, many0_instruction s = .ok ([], l)) ∧
     (∀ e, d = e + 1 → ∃ s' l, many0_instruction s = .ok (']' :: s', l) ∧
        scanDepth e s' = some 0 ∧ s'.length < s.length)) := by
  intro n
  induction n with
  | zero =>
    intro s hs hsym d hscan
    have hnil : s = [] := List.length_eq_zero.mp (by omega)
    subst hnil
    rw [scanDepth_nil] at hscan
    have hd : d = 0 := by injection hscan
    subst hd
    exact ⟨fun _ => ⟨[], many0_nil⟩, fun e he => absurd he (by omega)⟩
  | succ n ih =>
    intro s hs hsym d hscan
    match s with
    | [] =>
      rw [scanDepth_nil] at hscan
      have hd : d = 0 := by injection hscan
      subst hd
      exact ⟨fun _ => ⟨[], many0_nil⟩, fun e he => absurd he (by omega)⟩
    | c :: t =>
      have ht : t.length ≤ n := by
        simp only [List.length_cons] at hs
        omega
      have hsymt : ∀ c' ∈ t, isBFChar c' = true :=
        fun c' hc' => hsym c' (List.mem_cons_of_mem c hc')
      have hc8 : c = '>' ∨ c = '<' ∨ c = '+' ∨ c = '-' ∨ c = '.' ∨ c = ',' ∨
          c = '[' ∨ c = ']' := by
        have := hsym c (List.mem_cons_self c t)
        simp [isBFChar] at this
        tauto
      have hleaf : (c = '>' ∨ c = '<' ∨ c = '+' ∨ c = '-' ∨ c = '.' ∨ c = ',') ∨
          c = '[' ∨ c = ']' := by tauto
      rcases hleaf with hleaf | hc | hc
      · -- one of the six leaf symbols
        obtain ⟨instr, hpi⟩ := leaf_parse hleaf t
        have hne1 : c ≠ '[' := by rcases hleaf with h | h | h | h | h | h <;> subst h <;> decide
        have hne2 : c ≠ ']' := by rcases hleaf with h | h | h | h | h | h <;> subst h <;> decide
        have hscan' : scanDepth d t = some 0 := by
          rw [scanDepth_cons, if_neg hne1, if_neg hne2] at hscan
          exact hscan
        have hstep := many0_cons_of_pi hpi (by simp only [List.length_cons]; omega)
        obtain ⟨ih1, ih2⟩ := ih t ht hsymt d hscan'
        constructor
        · intro hd
          obtain ⟨l, hm⟩ := ih1 hd
          exact ⟨instr :: l, by rw [hstep, hm]⟩
        · intro e he
          obtain ⟨s', l, hm, hsc, hlen⟩ := ih2 e he
          refine ⟨s', instr :: l, by rw [hstep, hm], hsc, ?_⟩
          simp only [List.length_cons]
          omega
      · -- c = '[': enter a loop body one level deeper
        subst hc
        have hscan' : scanDepth (d + 1) t = some 0 := by
          rw [scanDepth_cons, if_pos rfl] at hscan
          exact hscan
        obtain ⟨_, ih2⟩ := ih t ht hsymt (d + 1) hscan'
        obtain ⟨s'', body, hm, hsc'', hlen''⟩ := ih2 d rfl
        have hpl : parse_loop ('[' :: t) = .ok (s'', body) := by
          rw [parse_loop_eq, tag_single_cons_self]
          dsimp only
          rw [hm]
          dsimp only
          rw [tag_single_cons_self]
        have hpi : parse_instruction ('[' :: t) = .ok (s'', .Loop body) := by
          rw [parse_instruction_cons, hpl]
          simp
        have hsub : ∀ c' ∈ s'', isBFChar c' = true := by
          intro c' hc'
          have hsuf := ((parser_facts t.length t le_rfl).2.2.2 _ _ hm).2
          exact hsymt c' (hsuf.subset (List.mem_cons_of_mem ']' hc'))
        have hs''n : s''.length ≤ n := by omega
        have hstep := many0_cons_of_pi hpi (by simp only [List.length_cons]; omega)
        obtain ⟨jh1, jh2⟩ := ih s'' hs''n hsub d hsc''
        constructor
        · intro hd
          obtain ⟨l, hm2⟩ := jh1 hd
          exact ⟨.Loop body :: l, by rw [hstep, hm2]⟩
        · intro e he
          obtain ⟨s3, l, hm2, hsc3, hlen3⟩ := jh2 e he
          refine ⟨s3, .Loop body :: l, by rw [hstep, hm2], hsc3, ?_⟩
          simp only [List.length_cons]
          omega
      · -- c = ']': close the innermost open loop
        subst hc
        rw [scanDepth_cons, if_neg (by decide), if_pos rfl] at hscan
        cases d with
        | zero => simp at hscan
        | succ e' =>
          dsimp only at hscan
          constructor
          · intro hd
            exact absurd hd (by omega)
          · intro e he
            have hee : e = e' := by omega
            subst hee
            exact ⟨t, [], many0_rsq t, hscan, by simp only [List.length_cons]; omega⟩

/-! ## Shape of the results of the public entry point -/

/-- A successful `parse` comes from a fully consuming
`many0(parse_instruction)` run, and its remaining input is empty. -/
theorem parse_ok_many0 {s r : List Char} {l : List Instruction}
    (h : parse s = .ok (r, l)) : many0_instruction s = .ok ([], l) ∧ r = [] := by
  unfold parse at h
  obtain ⟨r0, l0, hm⟩ := (parser_facts s.length s le_rfl).2.2.1
  rw [hm] at h
  cases r0 with
  | nil =>
    dsimp only at h
    injection h with h'
    injection h' with ha hb
    subst ha
    subst hb
    exact ⟨hm, rfl⟩
  | cons d r' =>
    dsimp only at h
    simp at h

/-- Every error of `parse` is the top-level `Eof` failure carrying the
nonempty unconsumed remainder, which is a suffix of the input. -/
theorem parse_error_shape {s : List Char} {e : NomErr} (h : parse s = .error e) :
    ∃ r l, many0_instruction s = .ok (r, l) ∧ r ≠ [] ∧ e = .failure r .Eof ∧ r <:+ s := by
  unfold parse at h
  obtain ⟨r0, l0, hm⟩ := (parser_facts s.length s le_rfl).2.2.1
  rw [hm] at h
  cases r0 with
  | nil =>
    dsimp only at h
    simp at h
  | cons d r' =>
    dsimp only at h
    injection h with h'
    exact ⟨d :: r', l0, hm, by simp, h'.symm,
      ((parser_facts s.length s le_rfl).2.2.2 _ _ hm).2⟩

/-- When `many0(parse_instruction)` leaves a nonempty remainder, `parse`
reports exactly the `Eof` failure at that remainder. -/
theorem parse_of_many0_cons {s r' : List Char} {d : Char} {l : List Instruction}
    (hm : many0_instruction s = .ok (d :: r', l)) :
    parse s = .error (.failure (d :: r') .Eof) := by
  unfold parse
  rw [hm]

/-- Printing the program returned by a successful `parse` reproduces the
input exactly. -/
theorem roundtrip_parse {s r : List Char} {l : List Instruction}
    (h : parse s = .ok (r, l)) : printList l = s ∧ r = [] := by
  obtain ⟨hm, hr⟩ := parse_ok_many0 h
  have := (roundtrip_facts s.length s le_rfl).2.2 [] l hm
  rw [List.append_nil] at this
  exact ⟨this, hr⟩

/-- Any input accepted by `parse` consists of the eight symbols only and is
properly balanced. -/
theorem parse_ok_balanced {s r : List Char} {l : List Instruction}
    (h : parse s = .ok (r, l)) :
    scanDepth 0 s = some 0 ∧ ∀ c ∈ s, isBFChar c = true := by
  obtain ⟨hp, _⟩ := roundtrip_parse h
  subst hp
  constructor
  · have := scanDepth_printList l 0 []
    rw [List.append_nil] at this
    rw [this]
    rfl
  · exact printList_chars l

/-! ## The claims -/

/-- Claim C1: for every input consisting only of the eight recognized
symbols whose bracket scan is properly balanced and nested, `parse`
succeeds and consumes the entire input (empty remaining input). -/
theorem claim1_balanced_input_parses (s : List Char)
    (hsym : ∀ c ∈ s, isBFChar c = true) (hbal : scanDepth 0 s = some 0) :
    ∃ l, parse s = .ok ([], l) := by
  obtain ⟨l, hm⟩ := (balanced_facts s.length s le_rfl hsym 0 hbal).1 rfl
  refine ⟨l, ?_⟩
  unfold parse
  rw [hm]

/-- Witness for C1 at the input `+[-]`. -/
theorem claim1_witness :
    (∀ c ∈ ['+', '[', '-', ']'], isBFChar c = true) ∧
    scanDepth 0 ['+', '[', '-', ']'] = some 0 ∧
    ∃ l, parse ['+', '[', '-', ']'] = .ok ([], l) :=
  ⟨by decide, by decide,
    claim1_balanced_input_parses ['+', '[', '-', ']'] (by decide) (by decide)⟩

/-- Claim C2 counterexample: on the input `[+` the failure `parse` reports
is `Failure` with kind `Eof` at the unconsumed remainder, exactly the same
trailing-input condition reported for `+]`; no distinct unterminated-loop
condition is reported. -/
theorem claim2_counterexample :
    parse ['[', '+'] = .error (.failure ['[', '+'] .Eof) ∧
    parse ['+', ']'] = .error (.failure [']'] .Eof) := by
  constructor
  · rw [parse_eval]; rfl
  · rw [parse_eval]; rfl

/-- Claim C2 (amended): for every input whose bracket scan completes with at
least one loop still open (an unmatched `[`), `parse` fails, but the failure
it reports is the single top-level trailing-input failure (kind `Eof`)
carrying the nonempty unconsumed remainder; the code does not report a
distinct unterminated-loop condition. -/
theorem claim2_unmatched_open_trailing (s : List Char) (d : Nat)
    (h : scanDepth 0 s = some (d + 1)) :
    ∃ rest l, many0_instruction s = .ok (rest, l) ∧ rest ≠ [] ∧
      parse s = .error (.failure rest .Eof) := by
  obtain ⟨r0, l0, hm⟩ := (parser_facts s.length s le_rfl).2.2.1
  cases r0 with
  | nil =>
    have hok : parse s = .ok ([], l0) := by
      unfold parse
      rw [hm]
    have hb := (parse_ok_balanced hok).1
    rw [hb] at h
    have := Option.some.inj h
    omega
  | cons a r' =>
    exact ⟨a :: r', l0, hm, by simp, parse_of_many0_cons hm⟩

/-- Witness for the amended C2 at the input `[+`. -/
theorem claim2_witness :
    scanDepth 0 ['[', '+'] = some (0 + 1) ∧
    ∃ rest l, many0_instruction ['[', '+'] = .ok (rest, l) ∧ rest ≠ [] ∧
      parse ['[', '+'] = .error (.failure rest .Eof) :=
  ⟨by decide, claim2_unmatched_open_trailing ['[', '+'] 0 (by decide)⟩

/-- Claim C3: on every input `parse` accepts, rendering the returned
instruction sequence back to text (leaves as their symbols, a `Loop` as `[`,
body, `]`, in sequence order) reproduces the input exactly, and the
remaining input is empty. -/
theorem claim3_parse_print_roundtrip (s r : List Char) (l : List Instruction)
    (h : parse s = .ok (r, l)) : printList l = s ∧ r = [] :=
  roundtrip_parse h

/-- Witness for C3 at the input `[->+<]`. -/
theorem claim3_witness :
    parse ['[', '-', '>', '+', '<', ']'] =
      .ok ([], [Instruction.Loop [.Decrement, .RightShift, .Increment, .LeftShift]]) ∧
    (printList [Instruction.Loop [.Decrement, .RightShift, .Increment, .LeftShift]] =
      ['[', '-', '>', '+', '<', ']'] ∧ ([] : List Char) = []) :=
  ⟨by rw [parse_eval]; rfl,
   claim3_parse_print_roundtrip ['[', '-', '>', '+', '<', ']'] []
     [Instruction.Loop [.Decrement, .RightShift, .Increment, .LeftShift]]
     (by rw [parse_eval]; rfl)⟩

/-- Claim C4: every input containing a character outside the eight
recognized symbols is rejected by `parse`. -/
theorem claim4_foreign_char_fails (s : List Char)
    (h : ∃ c ∈ s, isBFChar c = false) : ∃ e, parse s = .error e := by
  cases hp : parse s with
  | ok p =>
    obtain ⟨rest, l⟩ := p
    obtain ⟨c, hcs, hcf⟩ := h
    have := (parse_ok_balanced hp).2 c hcs
    rw [this] at hcf
    simp at hcf
  | error e => exact ⟨e, rfl⟩

/-- Witness for C4 at the input `s`. -/
theorem claim4_witness :
    (∃ c ∈ ['s'], isBFChar c = false) ∧ ∃ e, parse ['s'] = .error e :=
  ⟨by decide, claim4_foreign_char_fails ['s'] (by decide)⟩

/-- Claim C5: for every input whose bracket scan underflows (a `]` with no
corresponding `[` at its level), the top-level sequence parse still
completes, a nonempty remainder is left, and `parse` fails with the
trailing-input failure identifying that unconsumed remainder. -/
theorem claim5_unmatched_close_trailing (s : List Char)
    (h : scanDepth 0 s = none) :
    ∃ rest l, many0_instruction s = .ok (rest, l) ∧ rest ≠ [] ∧
      parse s = .error (.failure rest .Eof) := by
  obtain ⟨r0, l0, hm⟩ := (parser_facts s.length s le_rfl).2.2.1
  cases r0 with
  | nil =>
    have hok : parse s = .ok ([], l0) := by
      unfold parse
      rw [hm]
    have hb := (parse_ok_balanced hok).1
    rw [hb] at h
    simp at h
  | cons a r' =>
    exact ⟨a :: r', l0, hm, by simp, parse_of_many0_cons hm⟩

/-- Witness for C5 at the input `+]`. -/
theorem claim5_witness :
    scanDepth 0 ['+', ']'] = none ∧
    ∃ rest l, many0_instruction ['+', ']'] = .ok (rest, l) ∧ rest ≠ [] ∧
      parse ['+', ']'] = .error (.failure rest .Eof) :=
  ⟨by decide, claim5_unmatched_close_trailing ['+', ']'] (by decide)⟩

/-- Claim C6: each of the six data-less symbols alone parses to exactly the
corresponding leaf instruction with no remaining input. -/
theorem claim6_single_symbols :
    parse ['>'] = .ok ([], [.RightShift]) ∧
    parse ['<'] = .ok ([], [.LeftShift]) ∧
    parse ['+'] = .ok ([], [.Increment]) ∧
    parse ['-'] = .ok ([], [.Decrement]) ∧
    parse ['.'] = .ok ([], [.Output]) ∧
    parse [','] = .ok ([], [.Input]) := by
  refine ⟨?_, ?_, ?_, ?_, ?_, ?_⟩ <;> (rw [parse_eval]; rfl)

/-- Claim C7: parsing `+>>+[->+<]-` yields exactly the stated sequence with
the loop body in source order. -/
theorem claim7_example_program :
    parse ['+', '>', '>', '+', '[', '-', '>', '+', '<', ']', '-'] =
      .ok ([], [.Increment, .RightShift, .RightShift, .Increment,
        .Loop [.Decrement, .RightShift, .Increment, .LeftShift], .Decrement]) := by
  rw [parse_eval]
  rfl

/-- Claim C8: parsing `[]` yields exactly one `Loop` with an empty body. -/
theorem claim8_empty_loop : parse ['[', ']'] = .ok ([], [.Loop []]) := by
  rw [parse_eval]
  rfl

/-- Claim C9: every successful step of the instruction dispatcher consumes
at least one character, the fact that makes the mutually recursive
`parse`/`parse_instruction`/`parse_loop` total (they are admitted here by
exactly this measure). -/
theorem claim9_dispatcher_consumes (s r : List Char) (i : Instruction)
    (h : parse_instruction s = .ok (r, i)) : r.length < s.length :=
  ((parser_facts s.length s le_rfl).1.1 r i h).1

/-- Witness for C9 at the input `+`. -/
theorem claim9_witness :
    parse_instruction ['+'] = .ok ([], .Increment) ∧
    ([] : List Char).length < (['+'] : List Char).length :=
  ⟨by rw [parse_instruction_eval]; rfl,
   claim9_dispatcher_consumes ['+'] [] .Increment (by rw [parse_instruction_eval]; rfl)⟩

/-- Claim C10: the sequence parser `many0(parse_instruction)` never raises
an error, so the pass-through error branch of `parse` is unreachable, and
every failure `parse` reports is the single top-level `Failure` of kind
`Eof` whose payload is the nonempty unconsumed suffix of the input at which
instruction recognition stopped. -/
theorem claim10_single_error_kind (s : List Char) :
    (∃ r l, many0_instruction s = .ok (r, l)) ∧
    (∀ e, parse s = .error e → ∃ r, e = .failure r .Eof ∧ r ≠ [] ∧ r <:+ s) := by
  refine ⟨(parser_facts s.length s le_rfl).2.2.1, fun e he => ?_⟩
  obtain ⟨r, l, hm, hne, hef, hsuf⟩ := parse_error_shape he
  exact ⟨r, hef, hne, hsuf⟩

/-- Witness for C10 at the input `]`. -/
theorem claim10_witness :
    (∃ r l, many0_instruction [']'] = .ok (r, l)) ∧
    (∃ r, (NomErr.failure [']'] .Eof) = .failure r .Eof ∧ r ≠ [] ∧ r <:+ [']']) :=
  ⟨(claim10_single_error_kind [']']).1,
   (claim10_single_error_kind [']']).2 _ (by rw [parse_eval]; rfl)⟩
